import Mathlib

set_option maxHeartbeats 1000000

/-!
Verification development for kaldi-serve's `src/decoder.hpp`.

The file shallowly embeds the session / result-extraction layer of the
decoder header.  Scores, sample values and times are modelled as rationals;
machine `int32` bounds appear explicitly where the source relies on them.
The out-of-scope kaldi engine (feature pipeline, lattice search, word
alignment, minimum-Bayes-risk computation) is abstracted to the interface
the source consumes, following the specification's external-interface
section; every such point is marked `Modelled from the spec:` in its doc
comment.  Everything else is translated directly from the C++ source.
-/

namespace KaldiServe

/-- Word-level timing entry (decoder.hpp:34-37). -/
structure Word where
  start_time : ℚ
  end_time : ℚ
  confidence : ℚ
  word : String
deriving DecidableEq

/-- One ranked hypothesis (decoder.hpp:41-46). -/
structure Alternative where
  transcript : String
  confidence : ℚ
  am_score : ℚ
  lm_score : ℚ
  words : List Word := []
deriving DecidableEq

/-- Confidence from lm/am scores and word count (decoder.hpp:61-63):
`max(0.0, min(1.0, -0.0001466488 * (2.388449 * lm_score + am_score) / (n_words + 1) + 0.956))`. -/
def calculate_confidence (lm_score am_score : ℚ) (n_words : ℕ) : ℚ :=
  max 0 (min 1 (-0.0001466488 * (2.388449 * lm_score + am_score) / ((n_words : ℚ) + 1) + 0.956))

/-- Follows the spec's words: `clamp(lo, hi, x)` keeps `x` inside `[lo, hi]`.
Stated separately from `calculate_confidence` so the source formula can be
compared against the spec's `clamp(0, 1, ...)` form. -/
def spec_clamp (lo hi x : ℚ) : ℚ := max lo (min hi x)

/-! ## Chunking (decoder.hpp:365-430)

`decode_wav_audio` / `decode_raw_wav_audio` split the audio buffer into
chunks of `int32(samp_freq * chunk_size)` samples (minimum 1 when the
product truncates to 0); a non-positive `chunk_size` uses
`std::numeric_limits<int32>::max()` as the chunk length.  The C++ cast
`int32(...)` truncates toward zero. -/

/-- C++ float-to-int conversion: truncation toward zero. -/
def ratTrunc (x : ℚ) : ℤ :=
  if 0 ≤ x then ⌊x⌋ else ⌈x⌉

/-- `std::numeric_limits<int32>::max()`. -/
def int32max : ℤ := 2147483647

/-- Chunk length computation (decoder.hpp:375-382 and 409-416). -/
def chunk_length (samp_freq chunk_size : ℚ) : ℤ :=
  if 0 < chunk_size then
    if ratTrunc (samp_freq * chunk_size) = 0 then 1 else ratTrunc (samp_freq * chunk_size)
  else int32max

/-- The chunking while-loop (decoder.hpp:384-395 and 418-429): starting from
offset 0, take `num_samp = min chunkLen samp_remaining` samples per
iteration.  The loop is written with explicit fuel (the initial data length
suffices because every iteration consumes at least one sample whenever
`1 ≤ chunkLen`, which the source guarantees). -/
def chunkLoop : ℕ → ℤ → List ℚ → List (List ℚ)
  | 0, _, _ => []
  | fuel + 1, chunkLen, data =>
    if data.isEmpty then []
    else
      let sampRemaining : ℤ := data.length
      let numSamp : ℤ := if chunkLen < sampRemaining then chunkLen else sampRemaining
      data.take numSamp.toNat :: chunkLoop fuel chunkLen (data.drop numSamp.toNat)

/-- Non-streaming entry point (decoder.hpp:365-396), restricted to the chunk
plan: the list of chunks fed, in order, to `_decode_wave`.  (Reading the wav
container and selecting channel zero is I/O, out of scope; `data` is the
channel-zero sample list.) -/
def decode_wav_audio (samp_freq chunk_size : ℚ) (data : List ℚ) : List (List ℚ) :=
  chunkLoop data.length (chunk_length samp_freq chunk_size) data

/-- Raw headerless variant (decoder.hpp:398-430); the chunking loop is
identical to `decode_wav_audio`, only the data source differs. -/
def decode_raw_wav_audio (samp_freq chunk_size : ℚ) (data : List ℚ) : List (List ℚ) :=
  chunkLoop data.length (chunk_length samp_freq chunk_size) data

/-! ## Lattice and extraction model (decoder.hpp:505-616) -/

/-- One n-best entry: what `GetLinearSymbolSequence` recovers from a
single-path lattice — the word-id sequence and the two-component
`LatticeWeight` (`Value1` = graph/lm cost, `Value2` = acoustic cost)
(decoder.hpp:527-534). -/
structure LatPath where
  word_ids : List ℕ
  lm_cost : ℚ
  am_cost : ℚ
deriving DecidableEq

/-- Modelled from the spec: one entry of the minimum-Bayes-risk word
posterior output (`minimum_bayes_risk(alignedLattice) -> (confidences[],
bestWords[], timeIntervals[])`), the external computation consumed at
decoder.hpp:591-595.  The three parallel arrays are fused into one record
list (the source asserts their lengths are equal). -/
structure MbrWord where
  conf : ℚ
  word_id : ℕ
  tbeg : ℚ
  tend : ℚ
deriving DecidableEq

/-- Modelled from the spec: outcome of the external
`word_align(lattice, ...) -> (alignedLattice, ok)` call plus the MBR data the
aligned lattice would yield (decoder.hpp:562, 591-595).  `ok` is the boolean
returned by `WordAlignLattice`; `hasStart` is
`aligned_clat.Start() != fst::kNoStateId`; `mbrWords` is what the
minimum-Bayes-risk computation produces on the (possibly partial) aligned
lattice. -/
structure AlignOutcome where
  ok : Bool
  hasStart : Bool
  mbrWords : List MbrWord
deriving DecidableEq

/-- Abstraction of `kaldi::CompactLattice` to exactly what
`_find_alternatives` consumes: the state count (used only for logging),
the n-best path enumeration (`fst::ShortestPath` followed by
`ConvertNbestToVector`, decoder.hpp:516-519), and the word-alignment
outcome.  Modelled from the spec: the path enumeration and alignment are the
external search engine's, deterministic for a given lattice. -/
structure CompactLattice where
  numStates : ℕ
  nbestPaths : ℕ → List LatPath
  align : AlignOutcome

/-- Per-decoder immutable resources (decoder.hpp:178-198) with the external
kaldi engine abstracted.  `word_sym` is the symbol-table lookup
(`word_syms_->Find`); `enable_word_level` is
`DecoderOptions.enable_word_level`, set true by the constructor iff the
optional word-boundary file exists (decoder.hpp:247-255), so it also records
whether `wb_info_` is present.  Modelled from the spec: the engine-facing
fields — `adaptUpdate` (how the feature pipeline's pending adaptation vector
evolves with consumed audio), `framesOf` (frames decoded for a given
accepted sample stream) and `getLattice` (the finalized lattice as a
deterministic function of sample rate and accepted samples; `none` models a
lattice-extraction failure, which the source turns into `KALDI_ERR`) — stand
for the out-of-scope kaldi feature/search engine, specified only via its
consumed interface. -/
structure DecoderModel where
  word_sym : ℕ → String
  enable_word_level : Bool
  frame_subsampling_factor : ℕ
  acoustic_scale : ℚ
  adaptUpdate : ℚ → List ℚ → ℚ
  framesOf : ℚ → List ℚ → ℕ
  getLattice : ℚ → List ℚ → Option CompactLattice

/-- Modelled from the spec: `string_join` lives in `utils.hpp`, which is not
part of the covered source; the spec says the words of a path are joined
"with single spaces to form the transcript". -/
def string_join (parts : List String) (sep : String) : String :=
  String.intercalate sep parts

/-- Body of the n-best loop (decoder.hpp:526-548): transcript from the
symbol table, `lm_score`/`am_score` from the path weight, confidence via
`calculate_confidence`; `words` stays empty here. -/
def mkAlternative (m : DecoderModel) (l : LatPath) : Alternative :=
  { transcript := string_join (l.word_ids.map m.word_sym) " "
    confidence := calculate_confidence l.lm_cost l.am_cost l.word_ids.length
    am_score := l.am_cost
    lm_score := l.lm_cost
    words := [] }

/-- The alignment-outcome handling (decoder.hpp:564-579): on reported
failure, a valid start state lets the partial lattice be used (`ok := true`);
on reported success, a missing start state forces `ok := false`. -/
def resolveAlignment (a : AlignOutcome) : Bool :=
  if !a.ok then
    if a.hasStart then true else false
  else
    if !a.hasStart then false else true

/-- One word of the MBR loop body (decoder.hpp:599-610): frame intervals are
scaled by `frame_shift (0.01) * frame_subsampling_factor` to seconds. -/
def mkWord (m : DecoderModel) (w : MbrWord) : Word :=
  { start_time := w.tbeg * (0.01 * (m.frame_subsampling_factor : ℚ))
    end_time := w.tend * (0.01 * (m.frame_subsampling_factor : ℚ))
    confidence := w.conf
    word := m.word_sym w.word_id }

/-- `results[0].words = words` (decoder.hpp:613-615): replace the words of
the first element, if any. -/
def set_head_words (ws : List Word) : List Alternative → List Alternative
  | [] => []
  | r :: rs => { r with words := ws } :: rs

/-- `Decoder::_find_alternatives` (decoder.hpp:505-616).  The caller's
`results` vector is passed by reference in C++ and returned here.  An empty
lattice is only logged (decoder.hpp:509-511); an empty n-best enumeration
returns early with `results` untouched (decoder.hpp:521-524); alternatives
are appended (decoder.hpp:547); word-level enrichment runs only when both
`options.enable_word_level` and the request flag are set (decoder.hpp:550),
and attaches the MBR word sequence to `results[0]` when both the results and
the word list are non-empty (decoder.hpp:613-615). -/
def find_alternatives (m : DecoderModel) (clat : CompactLattice) (n_best : ℕ)
    (results : List Alternative) (word_level : Bool) : List Alternative :=
  let nbest_lats := clat.nbestPaths n_best
  if nbest_lats.isEmpty then results
  else
    let results' := results ++ nbest_lats.map (mkAlternative m)
    if !(m.enable_word_level && word_level) then results'
    else
      let ok := resolveAlignment clat.align
      let words := if ok then clat.align.mbrWords.map (mkWord m) else []
      if !results'.isEmpty && !words.isEmpty then set_head_words words results'
      else results'

/-! ## Session state machine (decoder.hpp:204-318, 432-503) -/

/-- Modelled from the spec: the external `OnlineNnet2FeaturePipeline` as far
as the source drives it — the adaptation state it was seeded with via
`SetAdaptationState` (decoder.hpp:299), the sample rate last passed to
`AcceptWaveform`, and the accepted samples so far. -/
structure FeaturePipeline where
  initAdapt : ℚ
  rate : ℚ
  samples : List ℚ
deriving DecidableEq

/-- Modelled from the spec: the external `SingleUtteranceNnet3Decoder`; after
each `AdvanceDecoding` it has consumed every sample the pipeline holds, so
its state is the sample stream it has decoded. -/
structure SearchState where
  samplesSeen : List ℚ
deriving DecidableEq

/-- Per-session state (decoder.hpp:191-201): the two per-utterance raw
pointers (`decoder_`, `feature_pipeline_`, NULL when free), the per-decoder
carried adaptation state `adaptation_state_`, and the request uuid. -/
structure DecoderState where
  model : DecoderModel
  feature_pipeline : Option FeaturePipeline
  decoder : Option SearchState
  adaptation_state : ℚ
  uuid : String

/-- Constructor tail (decoder.hpp:277-284): `decoder_` and
`feature_pipeline_` start NULL, `adaptation_state_` is freshly created from
the ivector-extractor resources (its initial value is the engine's,
abstracted as `initAdapt`), `uuid_` is empty. -/
def Decoder.construct (m : DecoderModel) (initAdapt : ℚ) : DecoderState :=
  { model := m
    feature_pipeline := none
    decoder := none
    adaptation_state := initAdapt
    uuid := "" }

/-- `Decoder::free_decoder` (decoder.hpp:308-318): delete both per-utterance
objects and clear the uuid. -/
def free_decoder (st : DecoderState) : DecoderState :=
  { st with decoder := none, feature_pipeline := none, uuid := "" }

/-- `Decoder::start_decoding` (decoder.hpp:295-306): free prior state, build
a fresh feature pipeline, seed it from `adaptation_state_` via
`SetAdaptationState`, build a fresh search, record the uuid. -/
def start_decoding (st : DecoderState) (uuid : String) : DecoderState :=
  let st' := free_decoder st
  { st' with
      feature_pipeline := some { initAdapt := st'.adaptation_state, rate := 0, samples := [] }
      decoder := some { samplesSeen := [] }
      uuid := uuid }

/-- `Decoder::_decode_wave` (decoder.hpp:455-503): accept the waveform, let
the silence-weighting update act inside the pipeline, then advance the
search over everything accepted.  With a NULL decoder or pipeline the C++
would dereference NULL; the model leaves the state unchanged there, and
every theorem about decoding starts from `start_decoding`. -/
def decode_wave (st : DecoderState) (samp_freq : ℚ) (wave_part : List ℚ) : DecoderState :=
  match st.feature_pipeline, st.decoder with
  | some fp, some _dec =>
      let fp' : FeaturePipeline :=
        { fp with samples := fp.samples ++ wave_part, rate := samp_freq }
      let dec' : SearchState := { samplesSeen := fp'.samples }
      { st with feature_pipeline := some fp', decoder := some dec' }
  | _, _ => st

/-- Modelled from the spec: the pipeline's pending speaker-adaptation vector
(`adaptation_state_get` of the consumed interface) evolves with the audio it
has consumed; `adaptUpdate` is the engine's update law. -/
def FeaturePipeline.currentAdapt (m : DecoderModel) (fp : FeaturePipeline) : ℚ :=
  m.adaptUpdate fp.initAdapt fp.samples

/-- `Decoder::get_decoded_results` (decoder.hpp:432-453): finalize (when not
bidirectional), return early with no results when zero frames were decoded,
otherwise extract the lattice and delegate to `_find_alternatives`; a
lattice-extraction failure becomes `KALDI_ERR` (an exception, modelled as
`Except.error`). -/
def get_decoded_results (st : DecoderState) (n_best : ℕ) (results : List Alternative)
    (word_level : Bool) (_bidi : Bool) : Except String (List Alternative) :=
  match st.feature_pipeline, st.decoder with
  | some fp, some dec =>
      if st.model.framesOf fp.rate dec.samplesSeen = 0 then .ok results
      else
        match st.model.getLattice fp.rate dec.samplesSeen with
        | none => .error "unexpected error during decoding lattice"
        | some clat => .ok (find_alternatives st.model clat n_best results word_level)
  | _, _ => .error "decoder not started"

/-! ## Decoder queue (decoder.hpp:656-748) -/

/-- The pool's underlying queue contents (decoder.hpp:662). -/
structure DecoderQueueState where
  queue : List DecoderState

/-- `DecoderQueue::push_` / `release` (decoder.hpp:723-728, 746-748): append
the released decoder to the queue, unchanged — nothing touches the decoder
object itself. -/
def DecoderQueue.release (q : DecoderQueueState) (d : DecoderState) : DecoderQueueState :=
  { queue := q.queue ++ [d] }

/-! ## Pool concurrency model (decoder.hpp:694-744)

The mutex makes each queue operation atomic, so the concurrent behaviour of
`acquire`/`release` is an interleaving of four atomic steps over a pool
state; decoders are identified by index (pointer identity).  `waiting` holds
the callers suspended in `pop_`'s `cond_.wait` loop (decoder.hpp:733-736);
a waiter resumes only via a `notify_one` from `push_` (decoder.hpp:727) and
re-checks the queue under the mutex before taking the front element. -/

/-- Pool state: available decoder ids, decoders held per caller, callers
blocked in `pop_`. -/
structure PoolState where
  queue : List ℕ
  held : List (ℕ × ℕ)
  waiting : List ℕ
deriving DecidableEq

/-- Pool construction (decoder.hpp:694-713): `n_decoders` distinct decoders
are produced and pushed. -/
def initPool (n : ℕ) : PoolState :=
  { queue := List.range n, held := [], waiting := [] }

/-- Atomic steps of the pool.  `acquire`: `pop_` finds the queue non-empty
and takes the front (decoder.hpp:737-739).  `acquire_wait`: `pop_` finds it
empty and suspends (decoder.hpp:733-736).  `release`: `push_` appends a
decoder held by caller `c` (written as the split `h1 ++ (c, d) :: h2`) and
notifies (decoder.hpp:723-728).  `wake`: a notified waiter (split out of the
waiting list as `w1 ++ c :: w2`) re-acquires the mutex, finds the queue
non-empty, and takes the front. -/
inductive PoolStep : PoolState → PoolState → Prop
  | acquire (c d : ℕ) (rest : List ℕ) (held : List (ℕ × ℕ)) (waiting : List ℕ) :
      PoolStep ⟨d :: rest, held, waiting⟩ ⟨rest, (c, d) :: held, waiting⟩
  | acquire_wait (c : ℕ) (held : List (ℕ × ℕ)) (waiting : List ℕ) :
      PoolStep ⟨[], held, waiting⟩ ⟨[], held, c :: waiting⟩
  | release (c d : ℕ) (queue : List ℕ) (h1 h2 : List (ℕ × ℕ)) (waiting : List ℕ) :
      PoolStep ⟨queue, h1 ++ (c, d) :: h2, waiting⟩ ⟨queue ++ [d], h1 ++ h2, waiting⟩
  | wake (c d : ℕ) (rest : List ℕ) (held : List (ℕ × ℕ)) (w1 w2 : List ℕ) :
      PoolStep ⟨d :: rest, held, w1 ++ c :: w2⟩ ⟨rest, (c, d) :: held, w1 ++ w2⟩

/-- States reachable from a freshly constructed pool of `n` decoders. -/
inductive PoolReachable (n : ℕ) : PoolState → Prop
  | init : PoolReachable n (initPool n)
  | step {s t : PoolState} : PoolReachable n s → PoolStep s t → PoolReachable n t

/-! ## Concrete instances used by witnesses and counterexamples -/

/-- A concrete lattice path: word ids 1 and 2, zero costs. -/
def exPath1 : LatPath := { word_ids := [1, 2], lm_cost := 0, am_cost := 0 }

/-- A concrete second-best lattice path. -/
def exPath2 : LatPath := { word_ids := [2], lm_cost := 0, am_cost := 0 }

/-- A concrete MBR output with one word. -/
def exMbr : List MbrWord := [{ conf := 1, word_id := 1, tbeg := 0, tend := 10 }]

/-- A concrete lattice whose alignment succeeds. -/
def exLat : CompactLattice :=
  { numStates := 5, nbestPaths := fun _ => [exPath1, exPath2]
    align := { ok := true, hasStart := true, mbrWords := exMbr } }

/-- A concrete lattice whose aligned form has no valid start state. -/
def exLatNS : CompactLattice :=
  { numStates := 5, nbestPaths := fun _ => [exPath1]
    align := { ok := true, hasStart := false, mbrWords := [] } }

/-- A concrete lattice with an empty n-best enumeration. -/
def exLatEmpty : CompactLattice :=
  { numStates := 0, nbestPaths := fun _ => []
    align := { ok := false, hasStart := false, mbrWords := [] } }

/-- A pre-existing alternative sitting in a caller's results vector. -/
def preAlt : Alternative :=
  { transcript := "prior", confidence := 1, am_score := 0, lm_score := 0, words := [] }

/-- A concrete decoder model: a small symbol table, word level enabled, an
adaptation law that advances by one per consumed sample, one frame per
sample, and a total lattice extraction. -/
def exModel : DecoderModel :=
  { word_sym := fun i => if i = 1 then "hello" else if i = 2 then "world" else "<unk>"
    enable_word_level := true
    frame_subsampling_factor := 3
    acoustic_scale := 1 / 10
    adaptUpdate := fun a samples => a + (samples.length : ℚ)
    framesOf := fun _ samples => samples.length
    getLattice := fun _ _ => some exLat }

/-- Head words of a results list (the words the source would leave on
`results[0]` when it does not assign). -/
def head_words : List Alternative → List Word
  | [] => []
  | r :: _ => r.words

/-! ## Theorems -/

/-- C1: for every lm score, am score, and word count, `calculate_confidence`
returns exactly `clamp(0, 1, -0.0001466488 * (2.388449*lm_score + am_score) /
(n_words + 1) + 0.956)`, and therefore the returned confidence always lies
in `[0, 1]`, at every input. -/
theorem C1_confidence_clamp (lm_score am_score : ℚ) (n_words : ℕ) :
    calculate_confidence lm_score am_score n_words
      = spec_clamp 0 1
          (-0.0001466488 * (2.388449 * lm_score + am_score) / ((n_words : ℚ) + 1) + 0.956)
    ∧ 0 ≤ calculate_confidence lm_score am_score n_words
    ∧ calculate_confidence lm_score am_score n_words ≤ 1 := by
  refine ⟨rfl, le_max_left _ _, ?_⟩
  exact max_le (by norm_num) (min_le_left _ _)

theorem chunkLoop_empty (fuel : ℕ) (L : ℤ) : chunkLoop fuel L [] = [] := by
  cases fuel <;> simp [chunkLoop]

theorem chunk_length_pos (samp_freq chunk_size : ℚ) (hf : 0 ≤ samp_freq) :
    1 ≤ chunk_length samp_freq chunk_size := by
  unfold chunk_length
  by_cases h : 0 < chunk_size
  · rw [if_pos h]
    have hprod : 0 ≤ samp_freq * chunk_size := mul_nonneg hf h.le
    have htr : ratTrunc (samp_freq * chunk_size) = ⌊samp_freq * chunk_size⌋ := by
      unfold ratTrunc; rw [if_pos hprod]
    have hnn : 0 ≤ ratTrunc (samp_freq * chunk_size) := by
      rw [htr]; exact Int.floor_nonneg.mpr hprod
    by_cases h0 : ratTrunc (samp_freq * chunk_size) = 0
    · rw [if_pos h0]
    · rw [if_neg h0]; omega
  · rw [if_neg h]; unfold int32max; omega

theorem chunkLoop_cons (f : ℕ) (L : ℤ) (data : List ℚ) (hd : data ≠ []) :
    chunkLoop (f + 1) L data
      = data.take (if L < (data.length : ℤ) then L else (data.length : ℤ)).toNat
        :: chunkLoop f L
            (data.drop (if L < (data.length : ℤ) then L else (data.length : ℤ)).toNat) := by
  simp only [chunkLoop]
  rw [if_neg (by simpa [List.isEmpty_iff] using hd)]

theorem chunkLoop_last (f : ℕ) (L : ℤ) (data : List ℚ) (hd : data ≠ [])
    (hc : ¬ L < (data.length : ℤ)) :
    chunkLoop (f + 1) L data = [data] := by
  rw [chunkLoop_cons f L data hd, if_neg hc,
      show ((data.length : ℤ)).toNat = data.length from by omega,
      List.take_length, List.drop_length, chunkLoop_empty]

theorem chunkLoop_flatten (L : ℤ) (hL : 1 ≤ L) :
    ∀ (fuel : ℕ) (data : List ℚ), data.length ≤ fuel →
      (chunkLoop fuel L data).flatten = data := by
  intro fuel
  induction fuel with
  | zero =>
      intro data h
      have hd : data = [] := List.eq_nil_of_length_eq_zero (Nat.le_zero.mp h)
      subst hd; simp [chunkLoop]
  | succ f ih =>
      intro data h
      by_cases hd : data = []
      · subst hd; simp [chunkLoop]
      · have hlen : 0 < data.length := List.length_pos.mpr hd
        rw [chunkLoop_cons f L data hd]
        have h1 : 1 ≤ (if L < (data.length : ℤ) then L else (data.length : ℤ)) := by
          split
          · exact hL
          · exact_mod_cast hlen
        rw [List.flatten_cons, ih _ (by simp only [List.length_drop]; omega)]
        exact List.take_append_drop _ _

theorem chunkLoop_ne_nil (L : ℤ) (hL : 1 ≤ L) (fuel : ℕ) (data : List ℚ)
    (h : data.length ≤ fuel) (hd : data ≠ []) :
    chunkLoop fuel L data ≠ [] := by
  intro hcon
  have := chunkLoop_flatten L hL fuel data h
  rw [hcon] at this
  exact hd this.symm

theorem chunkLoop_sizes (L : ℤ) (hL : 1 ≤ L) :
    ∀ (fuel : ℕ) (data : List ℚ), data.length ≤ fuel →
      (∀ c ∈ (chunkLoop fuel L data).dropLast, c.length = L.toNat)
      ∧ (∀ c ∈ chunkLoop fuel L data, c ≠ [] ∧ c.length ≤ L.toNat) := by
  intro fuel
  induction fuel with
  | zero =>
      intro data h
      have hd : data = [] := List.eq_nil_of_length_eq_zero (Nat.le_zero.mp h)
      subst hd; simp [chunkLoop]
  | succ f ih =>
      intro data h
      by_cases hd : data = []
      · subst hd; simp [chunkLoop]
      · have hlen : 0 < data.length := List.length_pos.mpr hd
        by_cases hc : L < (data.length : ℤ)
        · rw [chunkLoop_cons f L data hd, if_pos hc]
          have htn : L.toNat < data.length := by omega
          have hdrop : (data.drop L.toNat).length ≤ f := by
            simp only [List.length_drop]; omega
          have hdrop_ne : data.drop L.toNat ≠ [] := by
            intro hcon
            have := congrArg List.length hcon
            simp only [List.length_drop, List.length_nil] at this
            omega
          have hrec_ne : chunkLoop f L (data.drop L.toNat) ≠ [] :=
            chunkLoop_ne_nil L hL f _ hdrop hdrop_ne
          constructor
          · intro c hcmem
            rw [List.dropLast_cons_of_ne_nil hrec_ne] at hcmem
            rcases List.mem_cons.mp hcmem with rfl | hcmem
            · simp only [List.length_take]
              omega
            · exact (ih _ hdrop).1 c hcmem
          · intro c hcmem
            rcases List.mem_cons.mp hcmem with rfl | hcmem
            · refine ⟨?_, by simp only [List.length_take]; omega⟩
              intro hcon
              have := congrArg List.length hcon
              simp only [List.length_take, List.length_nil] at this
              omega
            · exact (ih _ hdrop).2 c hcmem
        · rw [chunkLoop_last f L data hd hc]
          have hle : data.length ≤ L.toNat := by omega
          constructor
          · intro c hcmem; simp at hcmem
          · intro c hcmem
            rw [List.mem_singleton] at hcmem
            subst hcmem
            exact ⟨hd, hle⟩

theorem chunkLoop_single (L : ℤ) (data : List ℚ) (hne : data ≠ [])
    (hlen : (data.length : ℤ) ≤ L) :
    chunkLoop data.length L data = [data] := by
  have hpos : 0 < data.length := List.length_pos.mpr hne
  obtain ⟨f, hf⟩ : ∃ f, data.length = f + 1 := ⟨data.length - 1, by omega⟩
  rw [hf]
  exact chunkLoop_last f L data hne (by omega)

/-- C4: the non-streaming entry points split the buffer into consecutive
chunks (their concatenation is the buffer), every chunk but the last has
exactly `chunk_length` samples and every chunk is non-empty and at most that
long; for positive `chunk_size` the chunk length is the truncation of
`samp_freq * chunk_size` with a minimum of 1; for non-positive `chunk_size`
the whole (int32-sized) buffer is fed as one chunk; the raw-wav entry point
uses the same chunk plan. -/
theorem C4_chunking (samp_freq chunk_size : ℚ) (hf : 0 ≤ samp_freq) (data : List ℚ) :
    (decode_wav_audio samp_freq chunk_size data).flatten = data
    ∧ (∀ c ∈ (decode_wav_audio samp_freq chunk_size data).dropLast,
        c.length = (chunk_length samp_freq chunk_size).toNat)
    ∧ (∀ c ∈ decode_wav_audio samp_freq chunk_size data,
        c ≠ [] ∧ c.length ≤ (chunk_length samp_freq chunk_size).toNat)
    ∧ (0 < chunk_size →
        chunk_length samp_freq chunk_size
          = if ratTrunc (samp_freq * chunk_size) = 0 then 1
            else ratTrunc (samp_freq * chunk_size))
    ∧ (chunk_size ≤ 0 → data ≠ [] → (data.length : ℤ) ≤ int32max →
        decode_wav_audio samp_freq chunk_size data = [data])
    ∧ decode_raw_wav_audio samp_freq chunk_size data
        = decode_wav_audio samp_freq chunk_size data := by
  have hL := chunk_length_pos samp_freq chunk_size hf
  refine ⟨chunkLoop_flatten _ hL _ _ le_rfl,
          (chunkLoop_sizes _ hL _ _ le_rfl).1,
          (chunkLoop_sizes _ hL _ _ le_rfl).2,
          ?_, ?_, rfl⟩
  · intro hs; unfold chunk_length; rw [if_pos hs]
  · intro hs hne hbound
    unfold decode_wav_audio
    rw [show chunk_length samp_freq chunk_size = int32max from by
          unfold chunk_length; rw [if_neg (not_lt.mpr hs)]]
    exact chunkLoop_single int32max data hne hbound

/-- Witness for C4 at concrete inputs. -/
theorem C4_chunking_witness :
    (decode_wav_audio 4 (1 / 2) [1, 2, 3, 4, 5]).flatten = [1, 2, 3, 4, 5]
    ∧ decode_wav_audio 4 0 [1, 2, 3] = [[1, 2, 3]] := by
  constructor
  · exact (C4_chunking 4 (1 / 2) (by norm_num) [1, 2, 3, 4, 5]).1
  · exact (C4_chunking 4 0 (by norm_num) [1, 2, 3]).2.2.2.2.1 le_rfl
      (by simp) (by unfold int32max; simp)

theorem find_alternatives_nil (m : DecoderModel) (clat : CompactLattice) (n_best : ℕ)
    (results : List Alternative) (word_level : Bool)
    (h : clat.nbestPaths n_best = []) :
    find_alternatives m clat n_best results word_level = results := by
  unfold find_alternatives
  simp [h]

theorem find_alternatives_eq (m : DecoderModel) (clat : CompactLattice) (n_best : ℕ)
    (results : List Alternative) (word_level : Bool)
    (h : clat.nbestPaths n_best ≠ []) :
    find_alternatives m clat n_best results word_level
      = (if !(m.enable_word_level && word_level) then
           results ++ (clat.nbestPaths n_best).map (mkAlternative m)
         else if !(results ++ (clat.nbestPaths n_best).map (mkAlternative m)).isEmpty
                 && !(if resolveAlignment clat.align
                      then clat.align.mbrWords.map (mkWord m) else []).isEmpty then
           set_head_words
             (if resolveAlignment clat.align
              then clat.align.mbrWords.map (mkWord m) else [])
             (results ++ (clat.nbestPaths n_best).map (mkAlternative m))
         else results ++ (clat.nbestPaths n_best).map (mkAlternative m)) := by
  unfold find_alternatives
  rw [if_neg (by simpa [List.isEmpty_iff] using h)]

theorem resolveAlignment_eq (a : AlignOutcome) : resolveAlignment a = a.hasStart := by
  obtain ⟨ok, hs, mbr⟩ := a
  cases ok <;> cases hs <;> rfl

theorem mkAlternative_words (m : DecoderModel) (l : LatPath) :
    (mkAlternative m l).words = [] := rfl

theorem set_head_words_transcripts (ws : List Word) (l : List Alternative) :
    (set_head_words ws l).map Alternative.transcript = l.map Alternative.transcript := by
  cases l <;> rfl

theorem set_head_words_drop_one (ws : List Word) (l : List Alternative) :
    (set_head_words ws l).drop 1 = l.drop 1 := by
  cases l <;> rfl

theorem set_head_words_head_words (l : List Alternative) :
    set_head_words (head_words l) l = l := by
  cases l <;> rfl

theorem stage_words (ws : List Word) (l : List Alternative) (b : Bool)
    (hl : ∀ a ∈ l, a.words = []) :
    (∀ a ∈ (if b then set_head_words ws l else l).drop 1, a.words = [])
    ∧ (∀ a ∈ (if b then set_head_words ws l else l), a.words ≠ [] →
        (if b then set_head_words ws l else l).head? = some a) := by
  cases b
  · rw [if_neg (fun h => nomatch h)]
    exact ⟨fun a ha => hl a (List.mem_of_mem_drop ha),
           fun a ha hw => absurd (hl a ha) hw⟩
  · rw [if_pos rfl]
    cases l with
    | nil => simp [set_head_words]
    | cons r rs =>
        simp only [set_head_words]
        constructor
        · intro a ha
          simp only [List.drop_succ_cons, List.drop_zero] at ha
          exact hl a (List.mem_cons_of_mem _ ha)
        · intro a ha hw
          rcases List.mem_cons.mp ha with rfl | ha
          · rfl
          · exact absurd (hl a (List.mem_cons_of_mem _ ha)) hw

/-- C2: `get_decoded_results` returns the caller's results unchanged (no
`Alternative` added) and no exception — `Except.ok`, never `Except.error` —
both when the search decoded zero frames and when the n-best enumeration of
the extracted lattice is empty. -/
theorem C2_empty_conditions (st : DecoderState) (n_best : ℕ) (results : List Alternative)
    (word_level bidi : Bool) (fp : FeaturePipeline) (dec : SearchState)
    (hfp : st.feature_pipeline = some fp) (hdec : st.decoder = some dec) :
    (st.model.framesOf fp.rate dec.samplesSeen = 0 →
      get_decoded_results st n_best results word_level bidi = .ok results)
    ∧ (∀ clat : CompactLattice,
        st.model.getLattice fp.rate dec.samplesSeen = some clat →
        clat.nbestPaths n_best = [] →
        get_decoded_results st n_best results word_level bidi = .ok results) := by
  obtain ⟨mo, fpo, deco, ad, u⟩ := st
  simp only at hfp hdec
  subst hfp
  subst hdec
  constructor
  · intro h0
    dsimp only at h0
    unfold get_decoded_results
    dsimp only
    rw [if_pos h0]
  · intro clat hlat hnb
    dsimp only at hlat
    unfold get_decoded_results
    dsimp only
    by_cases h0 : mo.framesOf fp.rate dec.samplesSeen = 0
    · rw [if_pos h0]
    · rw [if_neg h0, hlat]
      dsimp only
      rw [find_alternatives_nil _ _ _ _ _ hnb]

/-- Witness for C2: a freshly started session has decoded zero frames, and
extraction returns `ok []`. -/
theorem C2_empty_conditions_witness :
    get_decoded_results (start_decoding (Decoder.construct exModel 0) "u") 5 [] true false
      = .ok [] := by
  exact (C2_empty_conditions (start_decoding (Decoder.construct exModel 0) "u") 5 []
    true false ⟨0, 0, []⟩ ⟨[]⟩ rfl rfl).1 rfl

/-- C3: in the extraction output, `words` can be non-empty only on the first
(best-ranked) alternative, never on any later one; when word-level output was
not requested or the word-boundary metadata was absent at model-load time
(`enable_word_level` false) no alternative carries words; and any alternative
carrying words is the head of a non-empty result list with both flags set. -/
theorem C3_words_only_first (m : DecoderModel) (clat : CompactLattice) (n_best : ℕ)
    (word_level : Bool) :
    (∀ a ∈ (find_alternatives m clat n_best [] word_level).drop 1, a.words = [])
    ∧ ((m.enable_word_level && word_level) = false →
        ∀ a ∈ find_alternatives m clat n_best [] word_level, a.words = [])
    ∧ (∀ a ∈ find_alternatives m clat n_best [] word_level, a.words ≠ [] →
        (m.enable_word_level && word_level) = true
        ∧ (find_alternatives m clat n_best [] word_level).head? = some a) := by
  by_cases hnb : clat.nbestPaths n_best = []
  · rw [find_alternatives_nil _ _ _ _ _ hnb]
    refine ⟨by simp, fun _ => by simp, by simp⟩
  · have hbase : ∀ a ∈ ([] : List Alternative)
        ++ (clat.nbestPaths n_best).map (mkAlternative m), a.words = [] := by
      intro a ha
      simp only [List.nil_append, List.mem_map] at ha
      obtain ⟨p, _, rfl⟩ := ha
      rfl
    rw [find_alternatives_eq _ _ _ _ _ hnb]
    by_cases hg : (m.enable_word_level && word_level) = true
    · rw [hg]
      simp only [Bool.not_true, Bool.false_eq_true, if_false]
      refine ⟨(stage_words _ _ _ hbase).1, ?_, ?_⟩
      · intro h
        exact absurd h (by simp)
      · intro a ha hw
        refine ⟨?_, (stage_words _ _ _ hbase).2 a ha hw⟩
        trivial
    · have hg' : (m.enable_word_level && word_level) = false := by
        cases h : (m.enable_word_level && word_level)
        · rfl
        · exact absurd h hg
      rw [hg']
      rw [if_pos (show (!false) = true from rfl)]
      refine ⟨fun a ha => hbase a (List.mem_of_mem_drop ha), fun _ => hbase, ?_⟩
      intro a ha hw
      exact absurd (hbase a ha) hw

/-- Witness for C3: on a concrete two-path lattice with word-level output,
the second-ranked alternative carries no words. -/
theorem C3_words_only_first_witness : (mkAlternative exModel exPath2).words = [] := by
  have hmem : mkAlternative exModel exPath2
      ∈ (find_alternatives exModel exLat 2 [] true).drop 1 := by
    have hd : (find_alternatives exModel exLat 2 [] true).drop 1
        = [mkAlternative exModel exPath2] := rfl
    rw [hd]
    exact List.mem_singleton.mpr rfl
  exact (C3_words_only_first exModel exLat 2 true).1 _ hmem

/-- C7: with word-level output enabled and a non-empty n-best list — if the
aligned lattice has no valid start state (whatever `WordAlignLattice`
reported), no word-level output is attached; if alignment reported failure
but a valid start state exists, the partial aligned lattice is used and its
MBR word sequence is attached to the best alternative (when non-empty); in
every case the transcript-level alternatives are exactly the appended n-best
transcripts, unaffected by alignment. -/
theorem C7_alignment_outcomes (m : DecoderModel) (clat : CompactLattice) (n_best : ℕ)
    (results : List Alternative) (word_level : Bool)
    (hen : m.enable_word_level = true) (hwl : word_level = true)
    (hnb : clat.nbestPaths n_best ≠ []) :
    (clat.align.hasStart = false →
      find_alternatives m clat n_best results word_level
        = results ++ (clat.nbestPaths n_best).map (mkAlternative m))
    ∧ (clat.align.hasStart = true → clat.align.ok = false →
      find_alternatives m clat n_best results word_level
        = if clat.align.mbrWords = [] then
            results ++ (clat.nbestPaths n_best).map (mkAlternative m)
          else
            set_head_words (clat.align.mbrWords.map (mkWord m))
              (results ++ (clat.nbestPaths n_best).map (mkAlternative m)))
    ∧ (find_alternatives m clat n_best results word_level).map Alternative.transcript
        = (results ++ (clat.nbestPaths n_best).map (mkAlternative m)).map
            Alternative.transcript := by
  have hbase_ne : results ++ (clat.nbestPaths n_best).map (mkAlternative m) ≠ [] := by
    intro hcon
    rcases List.append_eq_nil.mp hcon with ⟨_, hmap⟩
    exact hnb (List.map_eq_nil_iff.mp hmap)
  rw [find_alternatives_eq _ _ _ _ _ hnb, hen, hwl]
  simp only [Bool.and_self, Bool.not_true, Bool.false_eq_true, if_false]
  refine ⟨?_, ?_, ?_⟩
  · intro hs
    have hws : (if resolveAlignment clat.align
        then clat.align.mbrWords.map (mkWord m) else []) = [] := by
      rw [resolveAlignment_eq, hs]
      rfl
    rw [hws]
    simp
  · intro hs _
    have hws : (if resolveAlignment clat.align
        then clat.align.mbrWords.map (mkWord m) else [])
        = clat.align.mbrWords.map (mkWord m) := by
      rw [resolveAlignment_eq, hs]
      exact if_pos rfl
    rw [hws]
    by_cases hmbr : clat.align.mbrWords = []
    · rw [if_pos hmbr, hmbr]
      simp
    · rw [if_neg hmbr]
      have hcond : (!(results ++ (clat.nbestPaths n_best).map (mkAlternative m)).isEmpty
          && !(clat.align.mbrWords.map (mkWord m)).isEmpty) = true := by
        simp [List.isEmpty_iff, hbase_ne, List.map_eq_nil_iff, hmbr]
      rw [if_pos hcond]
  · split
    · split
      · exact set_head_words_transcripts _ _
      · rfl
    · split
      · exact set_head_words_transcripts _ _
      · rfl

/-- Witness for C7: a concrete lattice whose aligned form lacks a start state
yields exactly the appended transcripts, with no word enrichment. -/
theorem C7_alignment_outcomes_witness :
    find_alternatives exModel exLatNS 1 [] true
      = [] ++ (exLatNS.nbestPaths 1).map (mkAlternative exModel) := by
  exact (C7_alignment_outcomes exModel exLatNS 1 [] true rfl rfl
    (by simp [exLatNS])).1 rfl

/-- C10: `_find_alternatives` appends to the caller-supplied results vector
without clearing it — pre-existing entries are preserved, precede the new
alternatives, and word-level enrichment lands on index 0, which is the
pre-existing first entry whenever the vector was non-empty on entry. -/
theorem C10_append_semantics (m : DecoderModel) (clat : CompactLattice) (n_best : ℕ)
    (results : List Alternative) (word_level : Bool) :
    (clat.nbestPaths n_best = [] →
      find_alternatives m clat n_best results word_level = results)
    ∧ (clat.nbestPaths n_best ≠ [] → ∃ ws : List Word,
        find_alternatives m clat n_best results word_level
          = set_head_words ws (results ++ (clat.nbestPaths n_best).map (mkAlternative m))
        ∧ ∀ r rs, results = r :: rs →
            find_alternatives m clat n_best results word_level
              = { r with words := ws }
                  :: (rs ++ (clat.nbestPaths n_best).map (mkAlternative m))) := by
  constructor
  · exact find_alternatives_nil m clat n_best results word_level
  · intro hnb
    rw [find_alternatives_eq _ _ _ _ _ hnb]
    set base := results ++ (clat.nbestPaths n_best).map (mkAlternative m) with hbasedef
    set ws0 := (if resolveAlignment clat.align
                then clat.align.mbrWords.map (mkWord m) else []) with hws0
    by_cases hg : (!(m.enable_word_level && word_level)) = true
    · rw [if_pos hg]
      refine ⟨head_words base, (set_head_words_head_words base).symm, ?_⟩
      intro r rs hres
      rw [hbasedef, hres]
      simp only [List.cons_append, head_words]
    · rw [if_neg hg]
      by_cases hcond : (!base.isEmpty && !ws0.isEmpty) = true
      · rw [if_pos hcond]
        refine ⟨ws0, rfl, ?_⟩
        intro r rs hres
        rw [hbasedef, hres]
        simp only [List.cons_append, set_head_words]
      · rw [if_neg hcond]
        refine ⟨head_words base, (set_head_words_head_words base).symm, ?_⟩
        intro r rs hres
        rw [hbasedef, hres]
        simp only [List.cons_append, head_words]

/-- Witness for C10: with an empty n-best enumeration the caller's
pre-existing entry is returned untouched. -/
theorem C10_append_semantics_witness :
    find_alternatives exModel exLatEmpty 1 [preAlt] true = [preAlt] := by
  exact (C10_append_semantics exModel exLatEmpty 1 [preAlt] true).1 rfl

theorem decode_wave_state (m : DecoderModel) (fp : FeaturePipeline) (dec : SearchState)
    (ad : ℚ) (u : String) (rate : ℚ) (chunk : List ℚ) :
    decode_wave ⟨m, some fp, some dec, ad, u⟩ rate chunk
      = ⟨m, some ⟨fp.initAdapt, rate, fp.samples ++ chunk⟩,
          some ⟨fp.samples ++ chunk⟩, ad, u⟩ := rfl

theorem decode_wave_foldl (m : DecoderModel) (ad : ℚ) (u : String) (rate : ℚ) :
    ∀ (chunks : List (List ℚ)) (ia r0 : ℚ) (smp : List ℚ), chunks ≠ [] →
      chunks.foldl (fun st c => decode_wave st rate c)
          ⟨m, some ⟨ia, r0, smp⟩, some ⟨smp⟩, ad, u⟩
        = ⟨m, some ⟨ia, rate, smp ++ chunks.flatten⟩,
            some ⟨smp ++ chunks.flatten⟩, ad, u⟩ := by
  intro chunks
  induction chunks with
  | nil => intro ia r0 smp h; exact absurd rfl h
  | cons c rest ih =>
      intro ia r0 smp _
      rw [List.foldl_cons, decode_wave_state]
      by_cases hr : rest = []
      · subst hr
        simp
      · rw [ih ia rate (smp ++ c) hr]
        simp

/-- C5 (amended): `start_decoding` discards all prior per-utterance state
(fresh pipeline and fresh search), seeds the new pipeline's adaptation state
from the session's carried adaptation vector, leaves the shared model and
the carried vector itself unchanged, and records the uuid; the carried
vector also survives decoding and `free_decoder` untouched — the code never
writes it back after construction. -/
theorem C5_adaptation_amended (s : DecoderState) (uuid : String) (rate : ℚ)
    (chunk : List ℚ) :
    (start_decoding s uuid).feature_pipeline
        = some { initAdapt := s.adaptation_state, rate := 0, samples := [] }
    ∧ (start_decoding s uuid).decoder = some { samplesSeen := [] }
    ∧ (start_decoding s uuid).model = s.model
    ∧ (start_decoding s uuid).adaptation_state = s.adaptation_state
    ∧ (start_decoding s uuid).uuid = uuid
    ∧ (decode_wave (start_decoding s uuid) rate chunk).adaptation_state
        = s.adaptation_state
    ∧ (free_decoder s).adaptation_state = s.adaptation_state := by
  obtain ⟨m, fpo, deco, ad, u⟩ := s
  exact ⟨rfl, rfl, rfl, rfl, rfl, rfl, rfl⟩

/-- Counterexample to C5 as stated: decoding an utterance advances the
pipeline's pending adaptation state (here from 0 to 3 after three samples),
but the session's carried `adaptation_state_` is never updated from it — it
stays 0, and the next utterance's pipeline is seeded with 0, not 3.  So the
carried vector is not "updated by each utterance". -/
theorem C5_adaptation_counterexample :
    ((decode_wave (start_decoding (Decoder.construct exModel 0) "u1") 16000
        [5, 6, 7]).feature_pipeline.map (FeaturePipeline.currentAdapt exModel))
      = some 3
    ∧ (decode_wave (start_decoding (Decoder.construct exModel 0) "u1") 16000
        [5, 6, 7]).adaptation_state = 0
    ∧ (start_decoding
        (decode_wave (start_decoding (Decoder.construct exModel 0) "u1") 16000 [5, 6, 7])
        "u2").feature_pipeline
      = some { initAdapt := 0, rate := 0, samples := [] }
    ∧ (3 : ℚ) ≠ 0 := by
  refine ⟨?_, rfl, rfl, by norm_num⟩
  show some ((0 : ℚ) + (([5, 6, 7] : List ℚ).length : ℚ)) = some 3
  norm_num

/-- C6 (amended): the uuid is set by `start_decoding` and cleared by
`free_decoder`; `release` merely pushes the session back onto the queue
unchanged — it does not clear the uuid. -/
theorem C6_uuid_amended (s : DecoderState) (uuid : String) (q : DecoderQueueState)
    (d : DecoderState) :
    (start_decoding s uuid).uuid = uuid
    ∧ (free_decoder s).uuid = ""
    ∧ (DecoderQueue.release q d).queue = q.queue ++ [d] :=
  ⟨rfl, rfl, rfl⟩

/-- Counterexample to C6 as stated: releasing a session whose last utterance
was "abc" leaves the pooled session still carrying uuid "abc" — `release`
does not clear it. -/
theorem C6_release_counterexample :
    ((DecoderQueue.release ⟨[]⟩
        (start_decoding (Decoder.construct exModel 0) "abc")).queue.head?.map
          DecoderState.uuid) = some "abc"
    ∧ "abc" ≠ "" := by
  exact ⟨rfl, by decide⟩

/-- C8: feeding an utterance in one chunk versus any non-empty partition into
smaller chunks (same samples, same rate) through the per-chunk decode step
yields identical finalize/extract results. -/
theorem C8_chunk_invariance (s : DecoderState) (uuid : String) (rate : ℚ)
    (chunks : List (List ℚ)) (hne : chunks ≠ [])
    (n_best : ℕ) (results : List Alternative) (word_level bidi : Bool) :
    get_decoded_results
        (chunks.foldl (fun st c => decode_wave st rate c) (start_decoding s uuid))
        n_best results word_level bidi
      = get_decoded_results
          (decode_wave (start_decoding s uuid) rate chunks.flatten)
          n_best results word_level bidi := by
  obtain ⟨m, fpo, deco, ad, u⟩ := s
  have h1 : start_decoding ⟨m, fpo, deco, ad, u⟩ uuid
      = ⟨m, some ⟨ad, 0, []⟩, some ⟨[]⟩, ad, uuid⟩ := rfl
  rw [h1, decode_wave_foldl m ad uuid rate chunks ad 0 [] hne, decode_wave_state]

/-- Witness for C8 at a concrete two-chunk partition. -/
theorem C8_chunk_invariance_witness :
    get_decoded_results
        ([[1], [2, 3]].foldl (fun st c => decode_wave st 16000 c)
          (start_decoding (Decoder.construct exModel 0) "u"))
        5 [] true false
      = get_decoded_results
          (decode_wave (start_decoding (Decoder.construct exModel 0) "u") 16000
            ([[1], [2, 3]] : List (List ℚ)).flatten)
          5 [] true false := by
  exact C8_chunk_invariance (Decoder.construct exModel 0) "u" 16000 [[1], [2, 3]]
    (by simp) 5 [] true false

theorem pool_perm {n : ℕ} {s : PoolState} (h : PoolReachable n s) :
    (s.queue ++ s.held.map Prod.snd).Perm (List.range n) := by
  induction h with
  | init => simp [initPool]
  | step _ hs ih =>
      cases hs with
      | acquire c d rest held waiting =>
          exact List.Perm.trans List.perm_middle ih
      | acquire_wait c held waiting =>
          exact ih
      | release c d queue h1 h2 waiting =>
          refine List.Perm.trans ?_ ih
          simp only [List.map_append, List.map_cons, List.append_assoc,
                     List.singleton_append]
          exact (List.perm_middle.symm).append_left queue
      | wake c d rest held w1 w2 =>
          exact List.Perm.trans List.perm_middle ih

/-- C9: in every reachable pool state, no decoder is held by two callers at
once (the held decoders are pairwise distinct), the number of held decoders
plus the queue length is exactly the pool size — so at most `n` concurrent
acquisitions are satisfied, and when all `n` are held the queue is empty and
any further acquire can only suspend; while the queue is empty no step
removes a waiter (a waiter is released only after some `release` refills the
queue), and no single step wakes more than one waiter. -/
theorem C9_pool_safety {n : ℕ} {s : PoolState} (h : PoolReachable n s) :
    (s.held.map Prod.snd).Nodup
    ∧ s.held.length + s.queue.length = n
    ∧ s.held.length ≤ n
    ∧ (s.held.length = n → s.queue = [])
    ∧ (s.queue = [] → ∀ t, PoolStep s t → ∀ c ∈ s.waiting, c ∈ t.waiting)
    ∧ (∀ t, PoolStep s t → s.waiting.length ≤ t.waiting.length + 1) := by
  have hperm := pool_perm h
  have hnodup : (s.queue ++ s.held.map Prod.snd).Nodup :=
    hperm.symm.nodup (List.nodup_range n)
  have hlen : s.queue.length + s.held.length = n := by
    have := hperm.length_eq
    simpa [List.length_append, List.length_map] using this
  refine ⟨hnodup.of_append_right, by omega, by omega, ?_, ?_, ?_⟩
  · intro hfull
    exact List.eq_nil_of_length_eq_zero (by omega)
  · intro hq t ht c hc
    cases ht with
    | acquire c' d rest held waiting => simp at hq
    | acquire_wait c' held waiting => exact List.mem_cons_of_mem _ hc
    | release c' d queue h1 h2 waiting => exact hc
    | wake c' d rest held w1 w2 => simp at hq
  · intro t ht
    cases ht with
    | acquire c' d rest held waiting =>
        simp only [List.length_cons, List.length_append]
        omega
    | acquire_wait c' held waiting =>
        simp only [List.length_cons, List.length_append]
        omega
    | release c' d queue h1 h2 waiting =>
        simp only [List.length_cons, List.length_append]
        omega
    | wake c' d rest held w1 w2 =>
        simp only [List.length_cons, List.length_append]
        omega

/-- Witness for C9: the state of a 2-decoder pool after one acquisition is
reachable, its held decoders are distinct, and at most 2 are held. -/
theorem C9_pool_safety_witness :
    ((⟨[1], [(7, 0)], []⟩ : PoolState).held.map Prod.snd).Nodup
    ∧ (⟨[1], [(7, 0)], []⟩ : PoolState).held.length ≤ 2 := by
  have h0 : PoolReachable 2 (initPool 2) := PoolReachable.init
  have heq : initPool 2 = ⟨[0, 1], [], []⟩ := by
    simp [initPool, List.range_succ]
  rw [heq] at h0
  have hreach : PoolReachable 2 ⟨[1], [(7, 0)], []⟩ :=
    PoolReachable.step h0 (PoolStep.acquire 7 0 [1] [] [])
  exact ⟨(C9_pool_safety hreach).1, (C9_pool_safety hreach).2.2.1⟩

end KaldiServe
